import Mathlib

/-!
# Verification of the impossible-torus logo geometry generator

A shallow embedding, over the real numbers, of `scripts/generate-paradox-logo.py`:
two elliptical bands crossing at 4 points, with an alternating over/under
occlusion pattern, gap half-angles trimmed from the under band, and filled
annulus-segment shapes emitted back-to-front.

Floating-point arithmetic of the source is idealised as exact real arithmetic;
`math.atan2 y x` is embedded as `Complex.arg ⟨x, y⟩`, Python's `a % (2*pi)`
as `a - 2*pi*⌊a/(2*pi)⌋`, and Python's stable `sort` as a stable insertion
sort.  The SVG string serialisation (`f"{x:.3f}"` formatting and file output)
is outside the geometric core and is represented by the list of sampled
outline points of each shape together with its z rank.
-/

namespace Paradox

/- ── Parameters (module-level constants of the script) ── -/

def SIZE : ℕ := 24

noncomputable def CX : ℝ := 12
noncomputable def CY : ℝ := 12

/-- Band A: horizontal-major radii 9.0 × 5.5. -/
noncomputable def A_RX : ℝ := 9.0
noncomputable def A_RY : ℝ := 5.5

/-- Band B: vertical-major radii 5.5 × 9.0. -/
noncomputable def B_RX : ℝ := 5.5
noncomputable def B_RY : ℝ := 9.0

noncomputable def THICKNESS : ℝ := 2.2
noncomputable def GAP_MARGIN : ℝ := 0.4

def ARC_SAMPLES : ℕ := 60

/- ── Geometry helpers ── -/

/-- `ellipse_tangent_speed rx ry t`: speed `|tangent|` on the ellipse at
parameter `t` (source: `ellipse_tangent_speed`, with `dx = -rx*sin t`,
`dy = ry*cos t`). -/
noncomputable def ellipse_tangent_speed (rx ry t : ℝ) : ℝ :=
  Real.sqrt ((-rx * Real.sin t) * (-rx * Real.sin t) + (ry * Real.cos t) * (ry * Real.cos t))

/-- `ellipse_tangent rx ry t`: unit tangent vector on the ellipse at `t`
(source: `ellipse_tangent`). -/
noncomputable def ellipse_tangent (rx ry t : ℝ) : ℝ × ℝ :=
  ((-rx * Real.sin t) / ellipse_tangent_speed rx ry t,
   (ry * Real.cos t) / ellipse_tangent_speed rx ry t)

/-- Position on the ellipse at parameter `t` (the `xa`/`ya` computation of
`find_crossings` and the arc sampling of `arc_path_annulus`). -/
noncomputable def ellipse_point (rx ry t : ℝ) : ℝ × ℝ :=
  (rx * Real.cos t, ry * Real.sin t)

/-- `normalize_angle a`: normalise an angle into `[0, 2π)`
(source: `normalize_angle`; Python's `a % (2*pi)` is
`a - 2*pi*⌊a/(2*pi)⌋`, and the defensive `if a < 0` branch is kept). -/
noncomputable def normalize_angle (a : ℝ) : ℝ :=
  let b := a - 2 * Real.pi * ⌊a / (2 * Real.pi)⌋
  if b < 0 then b + 2 * Real.pi else b

/-- Two-argument arctangent, `math.atan2 y x`, embedded as the complex
argument of `x + y*I`; its range is `(-π, π]`. -/
noncomputable def atan2 (y x : ℝ) : ℝ := Complex.arg ⟨x, y⟩

/- ── Intersection finder (`find_crossings`) ── -/

/-- Sample count per revolution (`N = 7200` in `find_crossings`). -/
def NSAMP : ℕ := 7200

/-- Parameter on A of the `i`-th sample: `ta = 2π i / N`. -/
noncomputable def taOf (i : ℕ) : ℝ := 2 * Real.pi * i / NSAMP

/-- `xa = A_RX * cos ta` of the `i`-th sample. -/
noncomputable def xaOf (i : ℕ) : ℝ := A_RX * Real.cos (taOf i)

/-- `ya = A_RY * sin ta` of the `i`-th sample. -/
noncomputable def yaOf (i : ℕ) : ℝ := A_RY * Real.sin (taOf i)

/-- `cb = xa / B_RX` of the `i`-th sample. -/
noncomputable def cbOf (i : ℕ) : ℝ := xaOf i / B_RX

/-- `sb = ya / B_RY` of the `i`-th sample. -/
noncomputable def sbOf (i : ℕ) : ℝ := yaOf i / B_RY

/-- `r2 = cb*cb + sb*sb` of the `i`-th sample: the value of B's implicit
ellipse equation at the sample point on A. -/
noncomputable def r2Of (i : ℕ) : ℝ := cbOf i * cbOf i + sbOf i * sbOf i

/-- `tb = atan2 sb cb` of the `i`-th sample: the recovered parameter on B. -/
noncomputable def tbOf (i : ℕ) : ℝ := atan2 (sbOf i) (cbOf i)

open Classical in
/-- One iteration of the sampling loop of `find_crossings`: skip when the
projected coordinates leave `[-1, 1]`, accept when `|r2 - 1| < 0.003`,
deduplicate against already-accepted crossings closer than `0.05` in `ta`. -/
noncomputable def find_step (cs : List (ℝ × ℝ)) (i : ℕ) : List (ℝ × ℝ) :=
  if 1 < |cbOf i| ∨ 1 < |sbOf i| then cs
  else if |r2Of i - 1| < 0.003 then
    if ∃ p ∈ cs, |taOf i - p.1| < 0.05 then cs
    else cs ++ [(taOf i, tbOf i)]
  else cs

/- ── Stable insertion sort (embedding Python's stable `sort`) ── -/

/-- Insert `x` into `l` after all elements `y` with `le y x` (stable insert). -/
def insertIn {β : Type} (le : β → β → Bool) (x : β) : List β → List β
  | [] => [x]
  | y :: ys => if le y x then y :: insertIn le x ys else x :: y :: ys

/-- Stable insertion sort with comparator `le`. -/
def iSort {β : Type} (le : β → β → Bool) (l : List β) : List β :=
  l.foldl (fun acc x => insertIn le x acc) []

/-- Lexicographic comparison on pairs of reals (Python's tuple ordering,
used by `crossings.sort()`). -/
noncomputable def pairLe (p q : ℝ × ℝ) : Bool :=
  decide (p.1 < q.1) || (decide (p.1 = q.1) && decide (p.2 ≤ q.2))

/-- `find_crossings`: the list of accepted `(ta, tb)` crossing parameter
pairs, sorted (source: `find_crossings`). -/
noncomputable def find_crossings : List (ℝ × ℝ) :=
  iSort pairLe ((List.range NSAMP).foldl find_step [])

/- ── Gap calculator (`crossing_gap_half`) ── -/

/-- Dot product of the two unit tangents at a crossing (the unsigned value
`tA[0]*tB[0] + tA[1]*tB[1]` before `abs` in `crossing_gap_half`). -/
noncomputable def tangent_dot (ta tb : ℝ) : ℝ :=
  (ellipse_tangent A_RX A_RY ta).1 * (ellipse_tangent B_RX B_RY tb).1 +
  (ellipse_tangent A_RX A_RY ta).2 * (ellipse_tangent B_RX B_RY tb).2

/-- `cross_angle = acos (min |dot| 1)`: angle between the tangent directions,
with the dot product clamped to `≤ 1` before the inverse cosine. -/
noncomputable def cross_angle (ta tb : ℝ) : ℝ :=
  Real.arccos (min |tangent_dot ta tb| 1)

/-- `sin_cross`: sine of the crossing angle, floored at `0.01` when the
tangents are near parallel (`cross_angle ≤ 0.01`). -/
noncomputable def sin_cross (ta tb : ℝ) : ℝ :=
  if 0.01 < cross_angle ta tb then Real.sin (cross_angle ta tb) else 0.01

/-- `projected_width = THICKNESS / sin_cross`: width of the over band
projected across the under band's path. -/
noncomputable def projected_width (ta tb : ℝ) : ℝ :=
  THICKNESS / sin_cross ta tb

/-- Tangent speed of the under band at the crossing. -/
noncomputable def under_speed (ta tb : ℝ) (under_is_a : Bool) : ℝ :=
  if under_is_a then ellipse_tangent_speed A_RX A_RY ta
  else ellipse_tangent_speed B_RX B_RY tb

/-- `crossing_gap_half`: half-gap angle for the under band at a crossing,
`(projected_width / 2 + GAP_MARGIN) / speed` (source: `crossing_gap_half`). -/
noncomputable def crossing_gap_half (ta tb : ℝ) (under_is_a : Bool) : ℝ :=
  (projected_width ta tb / 2 + GAP_MARGIN) / under_speed ta tb under_is_a

/- ── Segment assembler (`generate_svg`) ── -/

/-- The fixed alternating over/under pattern: `a_on_top = [True, False, True, False]`. -/
def a_on_top : Fin 4 → Bool := ![true, false, true, false]

/-- Ring A has a gap at crossing `ci` exactly when B is on top there
(`a_gap_halves` in the source). -/
noncomputable def a_gap_halves (cs : Fin 4 → ℝ × ℝ) (ci : Fin 4) : Option ℝ :=
  if a_on_top ci then none else some (crossing_gap_half (cs ci).1 (cs ci).2 true)

/-- Ring B has a gap at crossing `ci` exactly when A is on top there
(`b_gap_halves` in the source). -/
noncomputable def b_gap_halves (cs : Fin 4 → ℝ × ℝ) (ci : Fin 4) : Option ℝ :=
  if a_on_top ci then some (crossing_gap_half (cs ci).1 (cs ci).2 false) else none

/-- `a_cross_angles`: the four crossing parameters on A, normalised. -/
noncomputable def a_cross_angles (cs : Fin 4 → ℝ × ℝ) (k : Fin 4) : ℝ :=
  normalize_angle (cs k).1

/-- `b_cross_angles`: the four crossing parameters on B, normalised. -/
noncomputable def b_cross_angles (cs : Fin 4 → ℝ × ℝ) (k : Fin 4) : ℝ :=
  normalize_angle (cs k).2

/-- `sorted(range(4), key=angles)`: crossing indices sorted by their angle
on the ring. -/
noncomputable def sortIdx (key : Fin 4 → ℝ) : List (Fin 4) :=
  iSort (fun i j => decide (key i ≤ key j)) (List.finRange 4)

/-- Start parameter of the arc beginning at sorted crossing `idx`, advanced
by that crossing's gap half-angle when this band goes under there
(`t_start` after the first gap application in `generate_svg`). -/
noncomputable def segStart (angles : Fin 4 → ℝ) (gaps : Fin 4 → Option ℝ)
    (sorted : List (Fin 4)) (idx : Fin 4) : ℝ :=
  match gaps (sorted.getD idx.val 0) with
  | some g => angles (sorted.getD idx.val 0) + g
  | none => angles (sorted.getD idx.val 0)

/-- End parameter of the arc before gap retraction: the next sorted
crossing's angle, wrapped past `2π` when it does not exceed the start
crossing's angle. -/
noncomputable def segEndRaw (angles : Fin 4 → ℝ) (sorted : List (Fin 4))
    (idx : Fin 4) : ℝ :=
  if angles (sorted.getD ((idx.val + 1) % 4) 0) ≤ angles (sorted.getD idx.val 0)
  then angles (sorted.getD ((idx.val + 1) % 4) 0) + 2 * Real.pi
  else angles (sorted.getD ((idx.val + 1) % 4) 0)

/-- End parameter of the arc, retracted by the end crossing's gap half-angle
when this band goes under there (`t_end` after the second gap application). -/
noncomputable def segEnd (angles : Fin 4 → ℝ) (gaps : Fin 4 → Option ℝ)
    (sorted : List (Fin 4)) (idx : Fin 4) : ℝ :=
  match gaps (sorted.getD ((idx.val + 1) % 4) 0) with
  | some g => segEndRaw angles sorted idx - g
  | none => segEndRaw angles sorted idx

/-- Body of the per-arc loop of `generate_svg`: skip the arc when the
retracted end no longer exceeds the retracted start, otherwise emit it with
rank `2` (front) when this band is on top at the arc's start crossing, else
rank `0` (back). -/
noncomputable def segEntry (angles : Fin 4 → ℝ) (gaps : Fin 4 → Option ℝ)
    (front : Fin 4 → Bool) (sorted : List (Fin 4)) (idx : Fin 4) :
    Option (ℝ × ℝ × ℕ) :=
  if segEnd angles gaps sorted idx ≤ segStart angles gaps sorted idx then none
  else some (segStart angles gaps sorted idx, segEnd angles gaps sorted idx,
             if front (sorted.getD idx.val 0) then 2 else 0)

/-- Build the surviving arc segments of one band (the `a_segments` /
`b_segments` loops of `generate_svg`). -/
noncomputable def mkBand (angles : Fin 4 → ℝ) (gaps : Fin 4 → Option ℝ)
    (front : Fin 4 → Bool) : List (ℝ × ℝ × ℕ) :=
  (List.finRange 4).filterMap (segEntry angles gaps front (sortIdx angles))

/-- Ring A's surviving segments. -/
noncomputable def a_segments (cs : Fin 4 → ℝ × ℝ) : List (ℝ × ℝ × ℕ) :=
  mkBand (a_cross_angles cs) (a_gap_halves cs) a_on_top

/-- Ring B's surviving segments (front exactly where A is not on top). -/
noncomputable def b_segments (cs : Fin 4 → ℝ × ℝ) : List (ℝ × ℝ × ℕ) :=
  mkBand (b_cross_angles cs) (b_gap_halves cs) (fun ci => ! a_on_top ci)

/-- `arc_path_annulus`: sampled outline of a filled annular arc segment —
outer offset curve forward, inner offset curve backward
(source: `arc_path_annulus`, sans the string formatting). -/
noncomputable def arc_path_annulus (cx cy rx ry thickness t_start t_end : ℝ)
    (samples : ℕ) : List (ℝ × ℝ) :=
  let half := thickness / 2
  let outer := (List.range (samples + 1)).map (fun i =>
    (cx + (rx + half) * Real.cos (t_start + (t_end - t_start) * i / samples),
     cy + (ry + half) * Real.sin (t_start + (t_end - t_start) * i / samples)))
  let inner := (List.range (samples + 1)).map (fun i =>
    (cx + (rx - half) * Real.cos (t_end + (t_start - t_end) * i / samples),
     cy + (ry - half) * Real.sin (t_end + (t_start - t_end) * i / samples)))
  outer ++ inner

/-- All shapes, each a z rank paired with its outline, A's then B's
(the `all_paths` list of `generate_svg`). -/
noncomputable def all_paths (cs : Fin 4 → ℝ × ℝ) : List (ℕ × List (ℝ × ℝ)) :=
  (a_segments cs).map (fun s =>
    (s.2.2, arc_path_annulus CX CY A_RX A_RY THICKNESS s.1 s.2.1 ARC_SAMPLES)) ++
  (b_segments cs).map (fun s =>
    (s.2.2, arc_path_annulus CX CY B_RX B_RY THICKNESS s.1 s.2.1 ARC_SAMPLES))

/-- `all_paths.sort(key=lambda x: x[0])`: shapes sorted back (`z = 0`) before
front (`z = 2`). -/
noncomputable def all_paths_sorted (cs : Fin 4 → ℝ × ℝ) : List (ℕ × List (ℝ × ℝ)) :=
  iSort (fun p q => decide (p.1 ≤ q.1)) (all_paths cs)

/-- The pipeline applied to a crossing list: the `assert len(crossings) == 4`
of `generate_svg` becomes an `Except.error` carrying the diagnostic with the
actual count; otherwise the sorted shape list is produced. -/
noncomputable def generate_pipeline (cs : List (ℝ × ℝ)) :
    Except String (List (ℕ × List (ℝ × ℝ))) :=
  if h : cs.length = 4 then
    Except.ok (all_paths_sorted (fun k => cs.get (Fin.cast h.symm k)))
  else
    Except.error ("Expected 4 crossings, got " ++ toString cs.length)

/-- One full run of `generate_svg` (a pure function of the fixed constants;
the `Unit` argument stands for one invocation). -/
noncomputable def generate_svg (_run : Unit) :
    Except String (List (ℕ × List (ℝ × ℝ))) :=
  generate_pipeline find_crossings

/-- The acceptance condition of the sampling loop at sample `i` (both guards
of `find_crossings`, dedup aside). -/
def condAt (i : ℕ) : Prop :=
  ¬(1 < |cbOf i| ∨ 1 < |sbOf i|) ∧ |r2Of i - 1| < 0.003

/-- A pair produced by the sampling loop: the data of some accepted sample. -/
def goodPair (p : ℝ × ℝ) : Prop :=
  ∃ i : ℕ, i < NSAMP ∧ condAt i ∧ p = (taOf i, tbOf i)

/-- The per-crossing correctness predicate of C1: the crossing's point (the
position on A at the crossing's parameter-on-A) lies on ellipse A exactly and
satisfies ellipse B's implicit equation within the tolerance `0.003`. -/
def crossing_ok (p : ℝ × ℝ) : Prop :=
  ((ellipse_point A_RX A_RY p.1).1 / A_RX) ^ 2 +
    ((ellipse_point A_RX A_RY p.1).2 / A_RY) ^ 2 = 1 ∧
  |((ellipse_point A_RX A_RY p.1).1 / B_RX) ^ 2 +
    ((ellipse_point A_RX A_RY p.1).2 / B_RY) ^ 2 - 1| < 0.003

/- ──────────────────────────────────────────────────────────────────────
   Lemmas about the stable insertion sort
   ────────────────────────────────────────────────────────────────────── -/

theorem insertIn_length {β : Type} (le : β → β → Bool) (x : β) (l : List β) :
    (insertIn le x l).length = l.length + 1 := by
  induction l with
  | nil => rfl
  | cons y ys ih =>
    simp only [insertIn]
    split <;> simp [ih]

theorem mem_insertIn {β : Type} (le : β → β → Bool) (x a : β) (l : List β) :
    a ∈ insertIn le x l ↔ a = x ∨ a ∈ l := by
  induction l with
  | nil => simp [insertIn]
  | cons y ys ih =>
    simp only [insertIn]
    split
    · simp only [List.mem_cons, ih]
      tauto
    · simp

theorem insertIn_pairwise {β : Type} (le : β → β → Bool)
    (total : ∀ a b, le a b = true ∨ le b a = true)
    (tr : ∀ a b c, le a b = true → le b c = true → le a c = true)
    (x : β) (l : List β) (h : l.Pairwise (fun a b => le a b = true)) :
    (insertIn le x l).Pairwise (fun a b => le a b = true) := by
  induction l with
  | nil => simp [insertIn]
  | cons y ys ih =>
    rw [List.pairwise_cons] at h
    obtain ⟨hy, hys⟩ := h
    simp only [insertIn]
    split
    · rename_i hle
      rw [List.pairwise_cons]
      refine ⟨?_, ih hys⟩
      intro b hb
      rcases (mem_insertIn le x b ys).mp hb with rfl | hb
      · exact hle
      · exact hy b hb
    · rename_i hle
      have hxy : le x y = true := by
        rcases total y x with h' | h'
        · exact absurd h' hle
        · exact h'
      rw [List.pairwise_cons]
      constructor
      · intro b hb
        rcases List.mem_cons.mp hb with rfl | hb
        · exact hxy
        · exact tr x y b hxy (hy b hb)
      · rw [List.pairwise_cons]
        exact ⟨hy, hys⟩

theorem foldl_insertIn_length {β : Type} (le : β → β → Bool) (l acc : List β) :
    (l.foldl (fun acc x => insertIn le x acc) acc).length = acc.length + l.length := by
  induction l generalizing acc with
  | nil => simp
  | cons y ys ih =>
    simp only [List.foldl_cons, ih, insertIn_length, List.length_cons]
    omega

theorem iSort_length {β : Type} (le : β → β → Bool) (l : List β) :
    (iSort le l).length = l.length := by
  simp [iSort, foldl_insertIn_length]

theorem mem_foldl_insertIn {β : Type} (le : β → β → Bool) (l acc : List β) (a : β) :
    a ∈ l.foldl (fun acc x => insertIn le x acc) acc ↔ a ∈ acc ∨ a ∈ l := by
  induction l generalizing acc with
  | nil => simp
  | cons y ys ih =>
    simp only [List.foldl_cons, ih, mem_insertIn, List.mem_cons]
    tauto

theorem mem_iSort {β : Type} (le : β → β → Bool) (l : List β) (a : β) :
    a ∈ iSort le l ↔ a ∈ l := by
  simp [iSort, mem_foldl_insertIn]

theorem foldl_insertIn_pairwise {β : Type} (le : β → β → Bool)
    (total : ∀ a b, le a b = true ∨ le b a = true)
    (tr : ∀ a b c, le a b = true → le b c = true → le a c = true)
    (l acc : List β) (hacc : acc.Pairwise (fun a b => le a b = true)) :
    (l.foldl (fun acc x => insertIn le x acc) acc).Pairwise
      (fun a b => le a b = true) := by
  induction l generalizing acc with
  | nil => exact hacc
  | cons y ys ih =>
    exact ih (insertIn le y acc) (insertIn_pairwise le total tr y acc hacc)

theorem iSort_pairwise {β : Type} (le : β → β → Bool)
    (total : ∀ a b, le a b = true ∨ le b a = true)
    (tr : ∀ a b c, le a b = true → le b c = true → le a c = true)
    (l : List β) :
    (iSort le l).Pairwise (fun a b => le a b = true) :=
  foldl_insertIn_pairwise le total tr l [] (List.Pairwise.nil)

/- ──────────────────────────────────────────────────────────────────────
   Segment assembler: structural facts
   ────────────────────────────────────────────────────────────────────── -/

theorem segEntry_none_iff (angles : Fin 4 → ℝ) (gaps : Fin 4 → Option ℝ)
    (front : Fin 4 → Bool) (sorted : List (Fin 4)) (idx : Fin 4) :
    segEntry angles gaps front sorted idx = none ↔
      segEnd angles gaps sorted idx ≤ segStart angles gaps sorted idx := by
  unfold segEntry
  split
  · rename_i h
    simp [h]
  · rename_i h
    simp [h]

theorem mkBand_forall_lt (angles : Fin 4 → ℝ) (gaps : Fin 4 → Option ℝ)
    (front : Fin 4 → Bool) :
    ∀ s ∈ mkBand angles gaps front, s.1 < s.2.1 := by
  intro s hs
  rw [mkBand, List.mem_filterMap] at hs
  obtain ⟨idx, -, h⟩ := hs
  rw [segEntry] at h
  split at h
  · exact absurd h (by simp)
  · rename_i hgt
    obtain rfl : (segStart angles gaps (sortIdx angles) idx,
        segEnd angles gaps (sortIdx angles) idx,
        if front ((sortIdx angles).getD idx.val 0) then 2 else 0) = s :=
      Option.some_injective _ h
    exact lt_of_not_le hgt

theorem all_paths_length (cs : Fin 4 → ℝ × ℝ) :
    (all_paths cs).length = (a_segments cs).length + (b_segments cs).length := by
  simp [all_paths]

theorem all_paths_sorted_pairwise (cs : Fin 4 → ℝ × ℝ) :
    List.Pairwise (fun p q : ℕ × List (ℝ × ℝ) => p.1 ≤ q.1) (all_paths_sorted cs) := by
  have h := iSort_pairwise (fun p q : ℕ × List (ℝ × ℝ) => decide (p.1 ≤ q.1))
    (by
      intro a b
      rcases Nat.le_total a.1 b.1 with h | h
      · exact Or.inl (decide_eq_true h)
      · exact Or.inr (decide_eq_true h))
    (by
      intro a b c hab hbc
      exact decide_eq_true (le_trans (of_decide_eq_true hab) (of_decide_eq_true hbc)))
    (all_paths cs)
  exact h.imp (fun hab => of_decide_eq_true hab)

/-- **C4**: every arc segment emitted for band A or band B has start
parameter strictly less than end parameter after both gap retractions, and
the loop body returns `none` (skips the arc, contributing no shape) exactly
when the retracted end does not exceed the retracted start — no inverted or
empty arc is ever emitted. -/
theorem C4_emitted_arcs_strictly_increasing (cs : Fin 4 → ℝ × ℝ) :
    List.Forall (fun s : ℝ × ℝ × ℕ => s.1 < s.2.1) (a_segments cs) ∧
    List.Forall (fun s : ℝ × ℝ × ℕ => s.1 < s.2.1) (b_segments cs) ∧
    ∀ (angles : Fin 4 → ℝ) (gaps : Fin 4 → Option ℝ) (front : Fin 4 → Bool)
      (sorted : List (Fin 4)) (idx : Fin 4),
      (segEntry angles gaps front sorted idx = none ↔
        segEnd angles gaps sorted idx ≤ segStart angles gaps sorted idx) := by
  refine ⟨?_, ?_, segEntry_none_iff⟩
  · rw [List.forall_iff_forall_mem]
    exact mkBand_forall_lt _ _ _
  · rw [List.forall_iff_forall_mem]
    exact mkBand_forall_lt _ _ _

/-- **C5**: the final output has exactly one filled shape per surviving arc
segment of the two bands, and the shapes are sorted by z rank, so in
particular no front-ranked (`z = 2`) shape ever precedes a back-ranked
(`z = 0`) shape. -/
theorem C5_output_count_and_zorder (cs : Fin 4 → ℝ × ℝ) :
    (all_paths_sorted cs).length = (a_segments cs).length + (b_segments cs).length ∧
    List.Pairwise (fun p q : ℕ × List (ℝ × ℝ) => p.1 ≤ q.1) (all_paths_sorted cs) ∧
    List.Pairwise (fun p q : ℕ × List (ℝ × ℝ) => ¬(p.1 = 2 ∧ q.1 = 0))
      (all_paths_sorted cs) := by
  refine ⟨?_, all_paths_sorted_pairwise cs, ?_⟩
  · rw [all_paths_sorted, iSort_length, all_paths_length]
  · exact (all_paths_sorted_pairwise cs).imp (by rintro a b hab ⟨h2, h0⟩; omega)

/- ──────────────────────────────────────────────────────────────────────
   Gap calculator: safety and formula lemmas
   ────────────────────────────────────────────────────────────────────── -/

theorem ellipse_tangent_speed_pos (rx ry t : ℝ) (hrx : rx ≠ 0) (hry : ry ≠ 0) :
    0 < ellipse_tangent_speed rx ry t := by
  rw [ellipse_tangent_speed]
  apply Real.sqrt_pos.mpr
  rcases eq_or_ne (Real.sin t) 0 with hs | hs
  · have hc : Real.cos t ^ 2 = 1 := by
      have := Real.sin_sq_add_cos_sq t
      rw [hs] at this
      nlinarith
    have : Real.cos t ≠ 0 := by
      intro h0
      rw [h0] at hc
      norm_num at hc
    have h1 : ry * Real.cos t ≠ 0 := mul_ne_zero hry this
    nlinarith [mul_self_nonneg (-rx * Real.sin t), (mul_self_pos).mpr h1]
  · have h1 : -rx * Real.sin t ≠ 0 := mul_ne_zero (neg_ne_zero.mpr hrx) hs
    nlinarith [mul_self_nonneg (ry * Real.cos t), (mul_self_pos).mpr h1]

theorem under_speed_pos (ta tb : ℝ) (u : Bool) : 0 < under_speed ta tb u := by
  rw [under_speed]
  split
  · exact ellipse_tangent_speed_pos _ _ _ (by rw [A_RX]; norm_num) (by rw [A_RY]; norm_num)
  · exact ellipse_tangent_speed_pos _ _ _ (by rw [B_RX]; norm_num) (by rw [B_RY]; norm_num)

theorem cross_angle_nonneg (ta tb : ℝ) : 0 ≤ cross_angle ta tb :=
  Real.arccos_nonneg _

theorem cross_angle_le_pi_div_two (ta tb : ℝ) : cross_angle ta tb ≤ Real.pi / 2 :=
  Real.arccos_le_pi_div_two.mpr (le_min (abs_nonneg _) zero_le_one)

theorem sin_cross_pos (ta tb : ℝ) : 0 < sin_cross ta tb := by
  rw [sin_cross]
  split
  · rename_i h
    apply Real.sin_pos_of_pos_of_lt_pi
    · linarith [show (0:ℝ) < 0.01 by norm_num]
    · have h1 := cross_angle_le_pi_div_two ta tb
      have h2 := Real.pi_pos
      linarith
  · norm_num

theorem crossing_gap_half_nonneg (ta tb : ℝ) (u : Bool) :
    0 ≤ crossing_gap_half ta tb u := by
  rw [crossing_gap_half, projected_width]
  have h1 := sin_cross_pos ta tb
  have h2 := under_speed_pos ta tb u
  have h3 : (0:ℝ) ≤ THICKNESS := by rw [THICKNESS]; norm_num
  have h4 : (0:ℝ) ≤ GAP_MARGIN := by rw [GAP_MARGIN]; norm_num
  positivity

/-- Evaluation helper: the unit tangents of A at `ta = 0` and of B at
`tb = π/2` are exactly perpendicular. -/
theorem tangent_dot_eval_zero : tangent_dot 0 (Real.pi / 2) = 0 := by
  rw [tangent_dot, ellipse_tangent, ellipse_tangent]
  simp [Real.sin_zero, Real.cos_pi_div_two]

/-- Evaluation helper: A's tangent speed at `ta = 0` is `5.5`. -/
theorem under_speed_eval : under_speed 0 (Real.pi / 2) true = 5.5 := by
  rw [under_speed, if_pos rfl, ellipse_tangent_speed]
  rw [Real.sin_zero, Real.cos_zero, A_RX, A_RY]
  rw [show ((-9.0 * 0) * (-9.0 * 0) + (5.5 * 1) * (5.5 * 1) : ℝ) = 5.5 ^ 2 by norm_num]
  exact Real.sqrt_sq (by norm_num)

/-- Evaluation helper: the crossing angle at `(0, π/2)` is exactly `π/2`. -/
theorem cross_angle_eval : cross_angle 0 (Real.pi / 2) = Real.pi / 2 := by
  rw [cross_angle, tangent_dot_eval_zero, abs_zero,
    min_eq_left (by norm_num : (0:ℝ) ≤ 1), Real.arccos_zero]

theorem cross_angle_eval_gt : (0.01 : ℝ) < cross_angle 0 (Real.pi / 2) := by
  rw [cross_angle_eval]
  have := Real.pi_gt_three
  linarith

/-- Evaluation helper: the gap half-angle at the crossing `(0, π/2)` with A
under is `(2.2/2 + 0.4)/5.5 = 3/11`. -/
theorem crossing_gap_half_eval : crossing_gap_half 0 (Real.pi / 2) true = 3 / 11 := by
  have h1 : sin_cross 0 (Real.pi / 2) = 1 := by
    rw [sin_cross, cross_angle_eval, if_pos, Real.sin_pi_div_two]
    have := Real.pi_gt_three
    norm_num
    linarith
  rw [crossing_gap_half, projected_width, h1, under_speed_eval, THICKNESS, GAP_MARGIN]
  norm_num

/-- **C2**: at any crossing whose unit tangents are exactly perpendicular
(dot product zero, i.e. tangent angle exactly 90°), the gap half-angle is
exactly `(THICKNESS/2 + GAP_MARGIN) / speed` of the under band. -/
theorem C2_gap_at_perpendicular (ta tb : ℝ) (u : Bool)
    (h : tangent_dot ta tb = 0) :
    crossing_gap_half ta tb u = (THICKNESS / 2 + GAP_MARGIN) / under_speed ta tb u := by
  have hca : cross_angle ta tb = Real.pi / 2 := by
    rw [cross_angle, h, abs_zero, min_eq_left (by norm_num : (0:ℝ) ≤ 1),
      Real.arccos_zero]
  have hsc : sin_cross ta tb = 1 := by
    rw [sin_cross, hca, if_pos, Real.sin_pi_div_two]
    have := Real.pi_gt_three
    norm_num
    linarith
  rw [crossing_gap_half, projected_width, hsc, div_one]

/-- Witness for C2 at the concrete perpendicular input `(ta, tb) = (0, π/2)`
with A under: the tangents are perpendicular there and the gap evaluates to
`(2.2/2 + 0.4)/5.5 = 3/11`. -/
theorem C2_gap_at_perpendicular_witness :
    tangent_dot 0 (Real.pi / 2) = 0 ∧
    crossing_gap_half 0 (Real.pi / 2) true = 3 / 11 := by
  refine ⟨tangent_dot_eval_zero, ?_⟩
  rw [C2_gap_at_perpendicular 0 (Real.pi / 2) true tangent_dot_eval_zero,
    under_speed_eval, THICKNESS, GAP_MARGIN]
  norm_num

/-- **C3 (counterexample)**: the claimed formula
`((THICKNESS / sin θ) + GAP_MARGIN) / 2 / speed` — margin added *before*
halving — disagrees with the code at the input `(ta, tb) = (0, π/2)`, whose
tangent angle `π/2` is above the near-parallel floor: the code yields
`3/11` but the claimed formula `13/55`. -/
theorem C3_projected_width_counterexample :
    (0.01 : ℝ) < cross_angle 0 (Real.pi / 2) ∧
    crossing_gap_half 0 (Real.pi / 2) true ≠
      (THICKNESS / Real.sin (cross_angle 0 (Real.pi / 2)) + GAP_MARGIN) / 2 /
        under_speed 0 (Real.pi / 2) true := by
  refine ⟨cross_angle_eval_gt, ?_⟩
  rw [crossing_gap_half_eval, cross_angle_eval, Real.sin_pi_div_two,
    under_speed_eval, THICKNESS, GAP_MARGIN]
  norm_num

/-- **C3 (amended)**: for tangent angle above the near-parallel floor
(`cross_angle > 0.01`), the gap half-angle equals the projected width
`THICKNESS / sin θ` *halved first*, plus the margin, divided by the under
band's tangent speed: `(THICKNESS / sin θ / 2 + GAP_MARGIN) / speed`. -/
theorem C3_gap_formula_amended (ta tb : ℝ) (u : Bool)
    (h : (0.01 : ℝ) < cross_angle ta tb) :
    crossing_gap_half ta tb u =
      (THICKNESS / Real.sin (cross_angle ta tb) / 2 + GAP_MARGIN) /
        under_speed ta tb u := by
  rw [crossing_gap_half, projected_width, sin_cross, if_pos h]

/-- Witness for the amended C3 at `(ta, tb) = (0, π/2)` with A under:
the angle `π/2` is above the floor and the formula yields
`(2.2/1/2 + 0.4)/5.5 = 3/11`. -/
theorem C3_gap_formula_amended_witness :
    (0.01 : ℝ) < cross_angle 0 (Real.pi / 2) ∧
    crossing_gap_half 0 (Real.pi / 2) true = 3 / 11 := by
  refine ⟨cross_angle_eval_gt, ?_⟩
  rw [C3_gap_formula_amended 0 (Real.pi / 2) true cross_angle_eval_gt,
    cross_angle_eval, Real.sin_pi_div_two, under_speed_eval, THICKNESS, GAP_MARGIN]
  norm_num

/-- **C7**: the gap calculator is total over the reals and numerically
guarded: the clamped dot product fed to `acos` lies in `[0, 1]`, the sine
divisor is strictly positive (floored near parallel), the under band's
tangent speed divisor is strictly positive, and the resulting gap
half-angle is non-negative. -/
theorem C7_gap_calculator_guards (ta tb : ℝ) (u : Bool) :
    0 ≤ min |tangent_dot ta tb| 1 ∧ min |tangent_dot ta tb| 1 ≤ 1 ∧
    0 < sin_cross ta tb ∧ 0 < under_speed ta tb u ∧
    0 ≤ crossing_gap_half ta tb u :=
  ⟨le_min (abs_nonneg _) zero_le_one, min_le_right _ _,
   sin_cross_pos ta tb, under_speed_pos ta tb u,
   crossing_gap_half_nonneg ta tb u⟩

/- ──────────────────────────────────────────────────────────────────────
   Error handling and determinism
   ────────────────────────────────────────────────────────────────────── -/

/-- **C8**: the pipeline succeeds exactly when the crossing list has length
4; for any other count it aborts immediately with the diagnostic naming the
actual count, and produces no shapes. -/
theorem C8_abort_without_four_crossings (cs : List (ℝ × ℝ)) :
    ((∃ v, generate_pipeline cs = Except.ok v) ↔ cs.length = 4) ∧
    (cs.length ≠ 4 →
      generate_pipeline cs =
        Except.error ("Expected 4 crossings, got " ++ toString cs.length)) := by
  constructor
  · constructor
    · rintro ⟨v, hv⟩
      by_contra h
      rw [generate_pipeline, dif_neg h] at hv
      exact absurd hv (by simp)
    · intro h
      exact ⟨_, by rw [generate_pipeline, dif_pos h]⟩
  · intro h
    rw [generate_pipeline, dif_neg h]

/-- Witness for C8 at the concrete empty crossing list: the run aborts with
the diagnostic reporting the count `0`. -/
theorem C8_abort_without_four_crossings_witness :
    generate_pipeline [] = Except.error "Expected 4 crossings, got 0" := by
  have h := (C8_abort_without_four_crossings []).2 (by norm_num)
  simpa using h

/-- **C9**: determinism — any two runs of the full generation (each a pure
function of the fixed constants, with no external state) produce identical
output documents. -/
theorem C9_two_runs_identical (r1 r2 : Unit) : generate_svg r1 = generate_svg r2 := rfl

/- ──────────────────────────────────────────────────────────────────────
   Parameter ranges of the intersection finder
   ────────────────────────────────────────────────────────────────────── -/

theorem normalize_angle_mem (a : ℝ) :
    0 ≤ normalize_angle a ∧ normalize_angle a < 2 * Real.pi := by
  have h2pi : (0:ℝ) < 2 * Real.pi := by positivity
  have key : a - 2 * Real.pi * ⌊a / (2 * Real.pi)⌋ =
      2 * Real.pi * Int.fract (a / (2 * Real.pi)) := by
    rw [Int.fract]
    field_simp
  have h0 : 0 ≤ a - 2 * Real.pi * ⌊a / (2 * Real.pi)⌋ := by
    rw [key]
    exact mul_nonneg h2pi.le (Int.fract_nonneg _)
  have h1 : a - 2 * Real.pi * ⌊a / (2 * Real.pi)⌋ < 2 * Real.pi := by
    rw [key]
    nlinarith [Int.fract_lt_one (a / (2 * Real.pi))]
  rw [normalize_angle]
  simp only [not_lt.mpr h0, if_false]
  exact ⟨h0, h1⟩

theorem taOf_nonneg (i : ℕ) : 0 ≤ taOf i := by
  rw [taOf]
  positivity

theorem taOf_lt_two_pi (i : ℕ) (h : i < NSAMP) : taOf i < 2 * Real.pi := by
  have h1 : (0:ℝ) < Real.pi := Real.pi_pos
  have h2 : (i:ℝ) < 7200 := by
    rw [NSAMP] at h
    exact_mod_cast h
  rw [taOf, NSAMP]
  push_cast
  rw [div_lt_iff₀ (by norm_num : (0:ℝ) < 7200)]
  nlinarith [mul_pos h1 (sub_pos.mpr h2)]

theorem tbOf_range (i : ℕ) : -Real.pi < tbOf i ∧ tbOf i ≤ Real.pi := by
  rw [tbOf, atan2]
  exact ⟨Complex.neg_pi_lt_arg _, Complex.arg_le_pi _⟩

theorem find_step_elem (cs : List (ℝ × ℝ)) (i : ℕ) (p : ℝ × ℝ)
    (hp : p ∈ find_step cs i) :
    p ∈ cs ∨ (condAt i ∧ p = (taOf i, tbOf i)) := by
  rw [find_step] at hp
  split at hp
  · exact Or.inl hp
  · rename_i h1
    split at hp
    · rename_i h2
      split at hp
      · exact Or.inl hp
      · rcases List.mem_append.mp hp with h | h
        · exact Or.inl h
        · right
          exact ⟨⟨h1, h2⟩, List.mem_singleton.mp h⟩
    · exact Or.inl hp

theorem foldl_find_step_good (l : List ℕ) (acc : List (ℝ × ℝ))
    (hacc : ∀ p ∈ acc, goodPair p) (hl : ∀ i ∈ l, i < NSAMP) :
    ∀ p ∈ l.foldl find_step acc, goodPair p := by
  induction l generalizing acc with
  | nil => exact hacc
  | cons j js ih =>
    intro p hp
    refine ih (find_step acc j) ?_ (fun i hi => hl i (List.mem_cons_of_mem _ hi)) p hp
    intro q hq
    rcases find_step_elem acc j q hq with h | ⟨hc, rfl⟩
    · exact hacc q h
    · exact ⟨j, hl j (List.mem_cons_self _ _), hc, rfl⟩

theorem find_crossings_good : ∀ p ∈ find_crossings, goodPair p := by
  intro p hp
  rw [find_crossings, mem_iSort] at hp
  exact foldl_find_step_good (List.range NSAMP) [] (by simp)
    (fun i hi => List.mem_range.mp hi) p hp

/- ──────────────────────────────────────────────────────────────────────
   The sampling loop: how states evolve
   ────────────────────────────────────────────────────────────────────── -/

theorem taOf_sub (i j : ℕ) (_h : i ≤ j) :
    taOf j - taOf i = 2 * Real.pi * ((j:ℝ) - i) / 7200 := by
  rw [taOf, taOf, NSAMP]
  push_cast
  ring

/-- Samples at most 15 steps apart are closer than the dedup radius 0.05. -/
theorem taOf_dist_lt (i j : ℕ) (hij : i ≤ j) (h : j - i ≤ 15) :
    |taOf j - taOf i| < 0.05 := by
  have hd := taOf_sub i j hij
  have hji : ((j:ℝ) - i) ≤ 15 := by
    have h15 : (j:ℝ) ≤ (i:ℝ) + 15 := by exact_mod_cast (by omega : j ≤ i + 15)
    linarith
  have hji0 : (0:ℝ) ≤ (j:ℝ) - i := by
    have hle : (i:ℝ) ≤ (j:ℝ) := by exact_mod_cast hij
    linarith
  have hπu := Real.pi_lt_d6
  have hπ0 := Real.pi_pos
  rw [hd, abs_of_nonneg (div_nonneg (mul_nonneg (by positivity) hji0) (by norm_num))]
  nlinarith [mul_le_mul hπu.le hji hji0 (by norm_num : (0:ℝ) ≤ 3.141593)]

/-- Samples at least 58 steps apart are separated by at least 0.05. -/
theorem taOf_dist_ge (i j : ℕ) (h : i + 58 ≤ j) :
    (0.05:ℝ) ≤ |taOf j - taOf i| := by
  have hd := taOf_sub i j (by omega)
  have h58 : (58:ℝ) ≤ (j:ℝ) - i := by
    have hc : (i:ℝ) + 58 ≤ (j:ℝ) := by exact_mod_cast h
    linarith
  have hπl := Real.pi_gt_d6
  have hπ0 := Real.pi_pos
  rw [hd, abs_of_nonneg (div_nonneg (mul_nonneg (by positivity) (by linarith)) (by norm_num))]
  nlinarith [mul_le_mul hπl.le h58 (by norm_num : (0:ℝ) ≤ 58) hπ0.le]

theorem find_step_not_cond (cs : List (ℝ × ℝ)) (i : ℕ) (h : ¬ condAt i) :
    find_step cs i = cs := by
  rw [find_step]
  by_cases h1 : 1 < |cbOf i| ∨ 1 < |sbOf i|
  · rw [if_pos h1]
  · rw [if_neg h1, if_neg (fun h2 => h ⟨h1, h2⟩)]

theorem find_step_dup (cs : List (ℝ × ℝ)) (i : ℕ)
    (h : ∃ p ∈ cs, |taOf i - p.1| < 0.05) :
    find_step cs i = cs := by
  rw [find_step]
  split
  · rfl
  · by_cases h2 : |r2Of i - 1| < 0.003
    · rw [if_pos h2]
    · rw [if_neg h2]

theorem find_step_accept (cs : List (ℝ × ℝ)) (i : ℕ) (hc : condAt i)
    (h : ∀ p ∈ cs, ¬(|taOf i - p.1| < 0.05)) :
    find_step cs i = cs ++ [(taOf i, tbOf i)] := by
  rw [find_step, if_neg hc.1, if_pos hc.2, if_neg]
  rintro ⟨p, hp, hlt⟩
  exact h p hp hlt

/-- A stretch of samples that are each rejected (not accepted, or duplicates
of the current state) leaves the state unchanged. -/
theorem foldl_find_step_inert (n : ℕ) : ∀ (l : ℕ) (s : List (ℝ × ℝ)),
    (∀ i, l ≤ i → i < l + n → (¬ condAt i ∨ ∃ p ∈ s, |taOf i - p.1| < 0.05)) →
    (List.range' l n).foldl find_step s = s := by
  induction n with
  | zero => intro l s _; rfl
  | succ n ih =>
    intro l s h
    rw [List.range'_succ, List.foldl_cons]
    have hstep : find_step s l = s := by
      rcases h l le_rfl (by omega) with hc | hdup
      · exact find_step_not_cond s l hc
      · exact find_step_dup s l hdup
    rw [hstep]
    exact ih (l + 1) s (fun i hi1 hi2 => h i (by omega) (by omega))

/-- A cluster: a stretch of at most 16 samples, containing at least one
acceptable sample, all of whose samples are far from the current state,
adds exactly one crossing — the first acceptable sample of the stretch. -/
theorem foldl_find_step_cluster (n : ℕ) : ∀ (l : ℕ) (s : List (ℝ × ℝ)),
    n ≤ 16 →
    (∃ j, l ≤ j ∧ j < l + n ∧ condAt j) →
    (∀ p ∈ s, ∀ i, l ≤ i → i < l + n → ¬(|taOf i - p.1| < 0.05)) →
    ∃ i0, l ≤ i0 ∧ i0 < l + n ∧ condAt i0 ∧
      (List.range' l n).foldl find_step s = s ++ [(taOf i0, tbOf i0)] := by
  induction n with
  | zero =>
    intro l s _ hex _
    obtain ⟨j, h1, h2, _⟩ := hex
    omega
  | succ n ih =>
    intro l s hw hex hfar
    rw [List.range'_succ, List.foldl_cons]
    by_cases hc : condAt l
    · have hstep : find_step s l = s ++ [(taOf l, tbOf l)] :=
        find_step_accept s l hc (fun p hp => hfar p hp l le_rfl (by omega))
      rw [hstep]
      have habsorb : (List.range' (l + 1) n).foldl find_step
          (s ++ [(taOf l, tbOf l)]) = s ++ [(taOf l, tbOf l)] := by
        apply foldl_find_step_inert
        intro i hi1 hi2
        right
        refine ⟨(taOf l, tbOf l), by simp, ?_⟩
        simpa using taOf_dist_lt l i (by omega) (by omega)
      rw [habsorb]
      exact ⟨l, le_rfl, by omega, hc, rfl⟩
    · rw [find_step_not_cond s l hc]
      obtain ⟨j, hj1, hj2, hjc⟩ := hex
      have hj1' : l + 1 ≤ j := by
        rcases Nat.eq_or_lt_of_le hj1 with rfl | hlt
        · exact absurd hjc hc
        · omega
      obtain ⟨i0, h1, h2, h3, h4⟩ := ih (l + 1) s (by omega)
        ⟨j, hj1', by omega, hjc⟩
        (fun p hp i hi1 hi2 => hfar p hp i (by omega) (by omega))
      exact ⟨i0, by omega, by omega, h3, h4⟩

/- ──────────────────────────────────────────────────────────────────────
   Verified rational bounds on cosine (Taylor base + angle doubling)
   ────────────────────────────────────────────────────────────────────── -/

/-- Two-sided rational bound from the quadratic Taylor estimate
`|cos y - (1 - y²/2)| ≤ |y|⁴·(5/96)` on a rational bracket `[a, b]` of `y`. -/
theorem cos_base_bounds (y a b : ℝ) (ha : 0 ≤ a) (hya : a ≤ y) (hyb : y ≤ b)
    (hb1 : b ≤ 1) :
    1 - b ^ 2 / 2 - b ^ 4 * (5 / 96) ≤ Real.cos y ∧
    Real.cos y ≤ 1 - a ^ 2 / 2 + b ^ 4 * (5 / 96) := by
  have hy0 : 0 ≤ y := le_trans ha hya
  have habs : |y| ≤ 1 := by
    rw [abs_of_nonneg hy0]
    linarith
  have hb := abs_le.mp (Real.cos_bound habs)
  have hyabs : |y| = y := abs_of_nonneg hy0
  have hy2u : y ^ 2 ≤ b ^ 2 := by nlinarith
  have hy2l : a ^ 2 ≤ y ^ 2 := by nlinarith
  have hy4 : |y| ^ 4 ≤ b ^ 4 := by
    rw [hyabs]
    nlinarith
  have hy4n : 0 ≤ |y| ^ 4 := by positivity
  constructor
  · nlinarith [hb.1]
  · nlinarith [hb.2]

/-- Propagate a two-sided rational cosine bound through the doubling formula
`cos 2t = 2 cos² t - 1`. -/
theorem cos_double_bounds (t lo hi lo2 hi2 : ℝ)
    (h0 : 0 ≤ lo) (hlo : lo ≤ Real.cos t) (hhi : Real.cos t ≤ hi)
    (hl2 : lo2 ≤ 2 * lo ^ 2 - 1) (hh2 : 2 * hi ^ 2 - 1 ≤ hi2) :
    lo2 ≤ Real.cos (2 * t) ∧ Real.cos (2 * t) ≤ hi2 := by
  rw [Real.cos_two_mul]
  constructor
  · have h := mul_nonneg (sub_nonneg.mpr hlo)
      (show (0:ℝ) ≤ Real.cos t + lo by linarith)
    nlinarith
  · have h := mul_nonneg (sub_nonneg.mpr hhi)
      (show (0:ℝ) ≤ hi + Real.cos t by linarith)
    nlinarith

theorem cos_taOf_1164_bounds :
    (0.5266 : ℝ) ≤ Real.cos (taOf 1164) ∧ Real.cos (taOf 1164) ≤ (0.527 : ℝ) := by
  have hπl := Real.pi_gt_d6
  have hπu := Real.pi_lt_d6
  have hy : taOf 1164 / 16 = Real.pi * (1164 / 57600) := by
    rw [taOf, NSAMP]
    push_cast
    ring
  have hbase := cos_base_bounds (taOf 1164 / 16) 0.063486338 0.063486359 (by norm_num)
    (by rw [hy]; nlinarith) (by rw [hy]; nlinarith) (by norm_num)
  have h16l : (0.997983895 : ℝ) ≤ Real.cos (taOf 1164 / 16) := le_trans (by norm_num) hbase.1
  have h16u : Real.cos (taOf 1164 / 16) ≤ (0.997985589 : ℝ) := le_trans hbase.2 (by norm_num)
  have h8 := cos_double_bounds (taOf 1164 / 16) 0.997983895 0.997985589 0.991943709 0.991950472
    (by norm_num) h16l h16u (by norm_num) (by norm_num)
  rw [show 2 * (taOf 1164 / 16) = taOf 1164 / 8 by ring] at h8
  have h4 := cos_double_bounds (taOf 1164 / 8) 0.991943709 0.991950472 0.967904643 0.967931478
    (by norm_num) h8.1 h8.2 (by norm_num) (by norm_num)
  rw [show 2 * (taOf 1164 / 8) = taOf 1164 / 4 by ring] at h4
  have h2 := cos_double_bounds (taOf 1164 / 4) 0.967904643 0.967931478 0.873678795 0.873782693
    (by norm_num) h4.1 h4.2 (by norm_num) (by norm_num)
  rw [show 2 * (taOf 1164 / 4) = taOf 1164 / 2 by ring] at h2
  have hfin := cos_double_bounds (taOf 1164 / 2) 0.873678795 0.873782693 0.526629273 0.52699239
    (by norm_num) h2.1 h2.2 (by norm_num) (by norm_num)
  rw [show 2 * (taOf 1164 / 2) = taOf 1164 by ring] at hfin
  exact ⟨le_trans (by norm_num) hfin.1, le_trans hfin.2 (by norm_num)⟩

theorem cos_taOf_1171_bounds :
    (0.5214 : ℝ) ≤ Real.cos (taOf 1171) ∧ Real.cos (taOf 1171) ≤ (0.5218 : ℝ) := by
  have hπl := Real.pi_gt_d6
  have hπu := Real.pi_lt_d6
  have hy : taOf 1171 / 16 = Real.pi * (1171 / 57600) := by
    rw [taOf, NSAMP]
    push_cast
    ring
  have hbase := cos_base_bounds (taOf 1171 / 16) 0.063868129 0.06386815 (by norm_num)
    (by rw [hy]; nlinarith) (by rw [hy]; nlinarith) (by norm_num)
  have h16l : (0.997959563 : ℝ) ≤ Real.cos (taOf 1171 / 16) := le_trans (by norm_num) hbase.1
  have h16u : Real.cos (taOf 1171 / 16) ≤ (0.997961298 : ℝ) := le_trans hbase.2 (by norm_num)
  have h8 := cos_double_bounds (taOf 1171 / 16) 0.997959563 0.997961298 0.991846578 0.991853505
    (by norm_num) h16l h16u (by norm_num) (by norm_num)
  rw [show 2 * (taOf 1171 / 16) = taOf 1171 / 8 by ring] at h8
  have h4 := cos_double_bounds (taOf 1171 / 8) 0.991846578 0.991853505 0.967519268 0.967546751
    (by norm_num) h8.1 h8.2 (by norm_num) (by norm_num)
  rw [show 2 * (taOf 1171 / 8) = taOf 1171 / 4 by ring] at h4
  have h2 := cos_double_bounds (taOf 1171 / 4) 0.967519268 0.967546751 0.872187067 0.872293431
    (by norm_num) h4.1 h4.2 (by norm_num) (by norm_num)
  rw [show 2 * (taOf 1171 / 4) = taOf 1171 / 2 by ring] at h2
  have hfin := cos_double_bounds (taOf 1171 / 2) 0.872187067 0.872293431 0.521420559 0.52179166
    (by norm_num) h2.1 h2.2 (by norm_num) (by norm_num)
  rw [show 2 * (taOf 1171 / 2) = taOf 1171 by ring] at hfin
  exact ⟨le_trans (by norm_num) hfin.1, le_trans hfin.2 (by norm_num)⟩

theorem cos_taOf_1181_bounds :
    (0.5139 : ℝ) ≤ Real.cos (taOf 1181) ∧ Real.cos (taOf 1181) ≤ (0.5144 : ℝ) := by
  have hπl := Real.pi_gt_d6
  have hπu := Real.pi_lt_d6
  have hy : taOf 1181 / 16 = Real.pi * (1181 / 57600) := by
    rw [taOf, NSAMP]
    push_cast
    ring
  have hbase := cos_base_bounds (taOf 1181 / 16) 0.064413544 0.064413565 (by norm_num)
    (by rw [hy]; nlinarith) (by rw [hy]; nlinarith) (by norm_num)
  have h16l : (0.997924549 : ℝ) ≤ Real.cos (taOf 1181 / 16) := le_trans (by norm_num) hbase.1
  have h16u : Real.cos (taOf 1181 / 16) ≤ (0.997926345 : ℝ) := le_trans hbase.2 (by norm_num)
  have h8 := cos_double_bounds (taOf 1181 / 16) 0.997924549 0.997926345 0.99170681 0.991713981
    (by norm_num) h16l h16u (by norm_num) (by norm_num)
  rw [show 2 * (taOf 1181 / 16) = taOf 1181 / 8 by ring] at h8
  have h4 := cos_double_bounds (taOf 1181 / 8) 0.99170681 0.991713981 0.966964794 0.966993241
    (by norm_num) h8.1 h8.2 (by norm_num) (by norm_num)
  rw [show 2 * (taOf 1181 / 8) = taOf 1181 / 4 by ring] at h4
  have h2 := cos_double_bounds (taOf 1181 / 4) 0.966964794 0.966993241 0.870041825 0.870151857
    (by norm_num) h4.1 h4.2 (by norm_num) (by norm_num)
  rw [show 2 * (taOf 1181 / 4) = taOf 1181 / 2 by ring] at h2
  have hfin := cos_double_bounds (taOf 1181 / 2) 0.870041825 0.870151857 0.513945554 0.514328509
    (by norm_num) h2.1 h2.2 (by norm_num) (by norm_num)
  rw [show 2 * (taOf 1181 / 2) = taOf 1181 by ring] at hfin
  exact ⟨le_trans (by norm_num) hfin.1, le_trans hfin.2 (by norm_num)⟩

/- ──────────────────────────────────────────────────────────────────────
   Locating the acceptable samples: four clusters
   ────────────────────────────────────────────────────────────────────── -/

/-- `r2` as an affine function of `cos² ta` (radii substituted). -/
theorem r2Of_cos_form (i : ℕ) :
    r2Of i = 121 / 324 + (90335 / 39204) * Real.cos (taOf i) ^ 2 := by
  rw [r2Of, cbOf, sbOf, xaOf, yaOf, A_RX, A_RY, B_RX, B_RY]
  linear_combination (121 / 324 : ℝ) * Real.sin_sq_add_cos_sq (taOf i)

theorem taOf_mono (i j : ℕ) (h : i ≤ j) : taOf i ≤ taOf j := by
  rw [taOf, taOf, NSAMP]
  have h1 : (i:ℝ) ≤ (j:ℝ) := by exact_mod_cast h
  have h3 := mul_le_mul_of_nonneg_left h1 Real.pi_pos.le
  linarith

theorem taOf_le_pi_div_two (i : ℕ) (h : i ≤ 1800) : taOf i ≤ Real.pi / 2 := by
  have h1 := taOf_mono i 1800 h
  have h1800 : taOf 1800 = Real.pi / 2 := by
    rw [taOf, NSAMP]
    push_cast
    ring
  linarith

theorem cos_taOf_antitone (i j : ℕ) (hij : i ≤ j) (hj : j ≤ 1800) :
    Real.cos (taOf j) ≤ Real.cos (taOf i) := by
  apply Real.cos_le_cos_of_nonneg_of_le_pi (taOf_nonneg i) ?_ (taOf_mono i j hij)
  have h1 := taOf_le_pi_div_two j hj
  have h2 := Real.pi_pos
  linarith

theorem cos_taOf_nonneg (i : ℕ) (h : i ≤ 1800) : 0 ≤ Real.cos (taOf i) := by
  apply Real.cos_nonneg_of_mem_Icc
  rw [Set.mem_Icc]
  refine ⟨?_, taOf_le_pi_div_two i h⟩
  have h1 := taOf_nonneg i
  have h2 := Real.pi_pos
  linarith

/-- A sample whose cosine is at least `0.525` has `r2 - 1 ≥ 0.003`. -/
theorem notCond_of_cos_ge (i : ℕ) (h : (0.525:ℝ) ≤ Real.cos (taOf i)) :
    ¬ condAt i := by
  rintro ⟨-, h2⟩
  rw [r2Of_cos_form, abs_lt] at h2
  nlinarith [h2.2, sq_nonneg (Real.cos (taOf i) - 0.525)]

/-- A sample whose cosine lies in `[0, 0.517]` has `1 - r2 ≥ 0.003`. -/
theorem notCond_of_cos_le (i : ℕ) (h0 : 0 ≤ Real.cos (taOf i))
    (h : Real.cos (taOf i) ≤ (0.517:ℝ)) : ¬ condAt i := by
  rintro ⟨-, h2⟩
  rw [r2Of_cos_form, abs_lt] at h2
  nlinarith [h2.1, mul_nonneg h0 (sub_nonneg.mpr h)]

/-- Sample 1171 is accepted: its cosine lies in `[0.5214, 0.5218]`, putting
`r2` within `0.003` of `1`, and both projected coordinates within `[-1,1]`. -/
theorem condAt_1171 : condAt 1171 := by
  obtain ⟨hl, hu⟩ := cos_taOf_1171_bounds
  constructor
  · rintro (h | h)
    · rw [cbOf, xaOf, A_RX, B_RX] at h
      have hle : |9.0 * Real.cos (taOf 1171) / 5.5| ≤ 1 := by
        rw [abs_le, show (9.0:ℝ) * Real.cos (taOf 1171) / 5.5 =
          (18 / 11) * Real.cos (taOf 1171) by ring]
        constructor <;> linarith
      exact absurd h (not_lt.mpr hle)
    · rw [sbOf, yaOf, A_RY, B_RY] at h
      have hs1 := Real.sin_le_one (taOf 1171)
      have hs2 := Real.neg_one_le_sin (taOf 1171)
      have hle : |5.5 * Real.sin (taOf 1171) / 9.0| ≤ 1 := by
        rw [abs_le, show (5.5:ℝ) * Real.sin (taOf 1171) / 9.0 =
          (11 / 18) * Real.sin (taOf 1171) by ring]
        constructor <;> linarith
      exact absurd h (not_lt.mpr hle)
  · rw [r2Of_cos_form, abs_lt]
    constructor
    · nlinarith [sq_nonneg (Real.cos (taOf 1171) - 0.5214)]
    · nlinarith [mul_nonneg (show (0:ℝ) ≤ Real.cos (taOf 1171) by linarith)
        (sub_nonneg.mpr hu)]

/-- Reflection symmetry: sample `3600 - i` sees the mirrored point. -/
theorem condAt_reflect (i : ℕ) (h : i ≤ 3600) : condAt (3600 - i) ↔ condAt i := by
  have ht : taOf (3600 - i) = Real.pi - taOf i := by
    rw [taOf, taOf, NSAMP, Nat.cast_sub h]
    push_cast
    ring
  have hcb : cbOf (3600 - i) = -(cbOf i) := by
    rw [cbOf, cbOf, xaOf, xaOf, ht, Real.cos_pi_sub]
    ring
  have hsb : sbOf (3600 - i) = sbOf i := by
    rw [sbOf, sbOf, yaOf, yaOf, ht, Real.sin_pi_sub]
  rw [condAt, condAt, r2Of, r2Of, hcb, hsb, abs_neg, neg_mul_neg]

/-- Half-turn symmetry: sample `i + 3600` sees the antipodal point. -/
theorem condAt_shift (i : ℕ) : condAt (i + 3600) ↔ condAt i := by
  have ht : taOf (i + 3600) = taOf i + Real.pi := by
    rw [taOf, taOf, NSAMP]
    push_cast
    ring
  have hcb : cbOf (i + 3600) = -(cbOf i) := by
    rw [cbOf, cbOf, xaOf, xaOf, ht, Real.cos_add_pi]
    ring
  have hsb : sbOf (i + 3600) = -(sbOf i) := by
    rw [sbOf, sbOf, yaOf, yaOf, ht, Real.sin_add_pi]
    ring
  rw [condAt, condAt, r2Of, r2Of, hcb, hsb, abs_neg, abs_neg, neg_mul_neg,
    neg_mul_neg]

/-- In the first two quadrants (up to sample 2419), only samples in
`[1165, 1180]` can be accepted. -/
theorem notCond_base (i : ℕ) (hi : i ≤ 2419) (h : i ≤ 1164 ∨ 1181 ≤ i) :
    ¬ condAt i := by
  rcases h with h | h
  · apply notCond_of_cos_ge
    have h1 := cos_taOf_antitone i 1164 h (by norm_num)
    have h2 := cos_taOf_1164_bounds.1
    linarith
  · by_cases h18 : i ≤ 1800
    · apply notCond_of_cos_le i (cos_taOf_nonneg i h18)
      have h1 := cos_taOf_antitone 1181 i h h18
      have h2 := cos_taOf_1181_bounds.2
      linarith
    · intro hc
      have hc' : condAt (3600 - i) := (condAt_reflect i (by omega)).mpr hc
      refine notCond_of_cos_le (3600 - i) (cos_taOf_nonneg _ (by omega)) ?_ hc'
      have h1 := cos_taOf_antitone 1181 (3600 - i) (by omega) (by omega)
      have h2 := cos_taOf_1181_bounds.2
      linarith

/-- Outside the four 16-sample windows, no sample is accepted. -/
theorem notCond_outside (i : ℕ) (hi : i < 7200)
    (h1 : ¬(1165 ≤ i ∧ i < 1181)) (h2 : ¬(2420 ≤ i ∧ i < 2436))
    (h3 : ¬(4765 ≤ i ∧ i < 4781)) (h4 : ¬(6020 ≤ i ∧ i < 6036)) :
    ¬ condAt i := by
  by_cases c1 : i ≤ 2419
  · exact notCond_base i c1 (by omega)
  · by_cases c2 : i ≤ 3600
    · intro hc
      exact notCond_base (3600 - i) (by omega) (by omega)
        ((condAt_reflect i c2).mpr hc)
    · by_cases c3 : i ≤ 6019
      · intro hc
        have heq : i - 3600 + 3600 = i := by omega
        have hc' : condAt (i - 3600) :=
          (condAt_shift (i - 3600)).mp (by rw [heq]; exact hc)
        exact notCond_base (i - 3600) (by omega) (by omega) hc'
      · intro hc
        have heq : i - 3600 + 3600 = i := by omega
        have hc' : condAt (i - 3600) :=
          (condAt_shift (i - 3600)).mp (by rw [heq]; exact hc)
        have hc'' : condAt (7200 - i) := by
          have he2 : 3600 - (i - 3600) = 7200 - i := by omega
          exact he2 ▸ (condAt_reflect (i - 3600) (by omega)).mpr hc'
        exact notCond_base (7200 - i) (by omega) (by omega) hc''

theorem condAt_2429 : condAt 2429 := by
  have h := (condAt_reflect 1171 (by norm_num)).mpr condAt_1171
  norm_num at h
  exact h

theorem condAt_4771 : condAt 4771 := by
  have h := (condAt_shift 1171).mpr condAt_1171
  norm_num at h
  exact h

theorem condAt_6029 : condAt 6029 := by
  have h := (condAt_shift 2429).mpr condAt_2429
  norm_num at h
  exact h

/- ──────────────────────────────────────────────────────────────────────
   The sampling loop accepts exactly four crossings
   ────────────────────────────────────────────────────────────────────── -/

theorem range'_glue (a b c d s : ℕ) (h1 : d = a + b) (h2 : s = c + b) :
    List.range' a b ++ List.range' d c = List.range' a s := by
  subst h1 h2
  have h := List.range'_append a b c 1
  rw [one_mul] at h
  exact h

theorem range_7200_eq :
    List.range 7200 =
      List.range' 0 1165 ++ (List.range' 1165 16 ++ (List.range' 1181 1239 ++
      (List.range' 2420 16 ++ (List.range' 2436 2329 ++ (List.range' 4765 16 ++
      (List.range' 4781 1239 ++ (List.range' 6020 16 ++
        List.range' 6036 1164))))))) := by
  rw [range'_glue 6020 16 1164 6036 1180 (by norm_num) (by norm_num),
    range'_glue 4781 1239 1180 6020 2419 (by norm_num) (by norm_num),
    range'_glue 4765 16 2419 4781 2435 (by norm_num) (by norm_num),
    range'_glue 2436 2329 2435 4765 4764 (by norm_num) (by norm_num),
    range'_glue 2420 16 4764 2436 4780 (by norm_num) (by norm_num),
    range'_glue 1181 1239 4780 2420 6019 (by norm_num) (by norm_num),
    range'_glue 1165 16 6019 1181 6035 (by norm_num) (by norm_num),
    range'_glue 0 1165 6035 1165 7200 (by norm_num) (by norm_num),
    List.range_eq_range']

/-- The sampling loop of `find_crossings` produces exactly four crossings,
one from each of the four clusters of acceptable samples. -/
theorem crossings_raw :
    ∃ i1 i2 i3 i4 : ℕ,
      (1165 ≤ i1 ∧ i1 < 1181 ∧ condAt i1) ∧
      (2420 ≤ i2 ∧ i2 < 2436 ∧ condAt i2) ∧
      (4765 ≤ i3 ∧ i3 < 4781 ∧ condAt i3) ∧
      (6020 ≤ i4 ∧ i4 < 6036 ∧ condAt i4) ∧
      (List.range NSAMP).foldl find_step [] =
        [(taOf i1, tbOf i1), (taOf i2, tbOf i2),
         (taOf i3, tbOf i3), (taOf i4, tbOf i4)] := by
  have s1 : (List.range' 0 1165).foldl find_step [] = [] :=
    foldl_find_step_inert 1165 0 [] (fun i hi1 hi2 =>
      Or.inl (notCond_outside i (by omega) (by omega) (by omega) (by omega)
        (by omega)))
  obtain ⟨i1, h1a, h1b, h1c, e1⟩ := foldl_find_step_cluster 16 1165 []
    (by norm_num) ⟨1171, by norm_num, by norm_num, condAt_1171⟩ (by simp)
  rw [List.nil_append] at e1
  replace h1b : i1 < 1181 := by omega
  have s2 : (List.range' 1181 1239).foldl find_step [(taOf i1, tbOf i1)] =
      [(taOf i1, tbOf i1)] :=
    foldl_find_step_inert _ _ _ (fun i hi1 hi2 =>
      Or.inl (notCond_outside i (by omega) (by omega) (by omega) (by omega)
        (by omega)))
  obtain ⟨i2, h2a, h2b, h2c, e2⟩ := foldl_find_step_cluster 16 2420
    [(taOf i1, tbOf i1)]
    (by norm_num) ⟨2429, by norm_num, by norm_num, condAt_2429⟩
    (by
      intro p hp i hia hib
      rw [List.mem_singleton] at hp
      subst hp
      exact not_lt.mpr (taOf_dist_ge i1 i (by omega)))
  rw [List.singleton_append] at e2
  replace h2b : i2 < 2436 := by omega
  have s3 : (List.range' 2436 2329).foldl find_step
      [(taOf i1, tbOf i1), (taOf i2, tbOf i2)] =
      [(taOf i1, tbOf i1), (taOf i2, tbOf i2)] :=
    foldl_find_step_inert _ _ _ (fun i hi1 hi2 =>
      Or.inl (notCond_outside i (by omega) (by omega) (by omega) (by omega)
        (by omega)))
  obtain ⟨i3, h3a, h3b, h3c, e3⟩ := foldl_find_step_cluster 16 4765
    [(taOf i1, tbOf i1), (taOf i2, tbOf i2)]
    (by norm_num) ⟨4771, by norm_num, by norm_num, condAt_4771⟩
    (by
      intro p hp i hia hib
      rcases List.mem_cons.mp hp with rfl | hp
      · exact not_lt.mpr (taOf_dist_ge i1 i (by omega))
      · rw [List.mem_singleton] at hp
        subst hp
        exact not_lt.mpr (taOf_dist_ge i2 i (by omega)))
  rw [List.cons_append, List.singleton_append] at e3
  replace h3b : i3 < 4781 := by omega
  have s4 : (List.range' 4781 1239).foldl find_step
      [(taOf i1, tbOf i1), (taOf i2, tbOf i2), (taOf i3, tbOf i3)] =
      [(taOf i1, tbOf i1), (taOf i2, tbOf i2), (taOf i3, tbOf i3)] :=
    foldl_find_step_inert _ _ _ (fun i hi1 hi2 =>
      Or.inl (notCond_outside i (by omega) (by omega) (by omega) (by omega)
        (by omega)))
  obtain ⟨i4, h4a, h4b, h4c, e4⟩ := foldl_find_step_cluster 16 6020
    [(taOf i1, tbOf i1), (taOf i2, tbOf i2), (taOf i3, tbOf i3)]
    (by norm_num) ⟨6029, by norm_num, by norm_num, condAt_6029⟩
    (by
      intro p hp i hia hib
      rcases List.mem_cons.mp hp with rfl | hp
      · exact not_lt.mpr (taOf_dist_ge i1 i (by omega))
      · rcases List.mem_cons.mp hp with rfl | hp
        · exact not_lt.mpr (taOf_dist_ge i2 i (by omega))
        · rw [List.mem_singleton] at hp
          subst hp
          exact not_lt.mpr (taOf_dist_ge i3 i (by omega)))
  rw [List.cons_append, List.cons_append, List.singleton_append] at e4
  replace h4b : i4 < 6036 := by omega
  have s5 : (List.range' 6036 1164).foldl find_step
      [(taOf i1, tbOf i1), (taOf i2, tbOf i2), (taOf i3, tbOf i3),
       (taOf i4, tbOf i4)] =
      [(taOf i1, tbOf i1), (taOf i2, tbOf i2), (taOf i3, tbOf i3),
       (taOf i4, tbOf i4)] :=
    foldl_find_step_inert _ _ _ (fun i hi1 hi2 =>
      Or.inl (notCond_outside i (by omega) (by omega) (by omega) (by omega)
        (by omega)))
  refine ⟨i1, i2, i3, i4, ⟨h1a, h1b, h1c⟩, ⟨h2a, h2b, h2c⟩, ⟨h3a, h3b, h3c⟩,
    ⟨h4a, h4b, h4c⟩, ?_⟩
  rw [NSAMP, range_7200_eq]
  simp only [List.foldl_append]
  rw [s1, e1, s2, e2, s3, e3, s4, e4, s5]

/- ──────────────────────────────────────────────────────────────────────
   The intersection finder's contract
   ────────────────────────────────────────────────────────────────────── -/

theorem pairLe_iff (p q : ℝ × ℝ) :
    pairLe p q = true ↔ p.1 < q.1 ∨ (p.1 = q.1 ∧ p.2 ≤ q.2) := by
  rw [pairLe]
  simp [Bool.or_eq_true, Bool.and_eq_true, decide_eq_true_eq]

theorem pairLe_total (p q : ℝ × ℝ) : pairLe p q = true ∨ pairLe q p = true := by
  rw [pairLe_iff, pairLe_iff]
  rcases lt_trichotomy p.1 q.1 with h | h | h
  · exact Or.inl (Or.inl h)
  · rcases le_total p.2 q.2 with h2 | h2
    · exact Or.inl (Or.inr ⟨h, h2⟩)
    · exact Or.inr (Or.inr ⟨h.symm, h2⟩)
  · exact Or.inr (Or.inl h)

theorem pairLe_trans (p q r : ℝ × ℝ) (h1 : pairLe p q = true)
    (h2 : pairLe q r = true) : pairLe p r = true := by
  rw [pairLe_iff] at h1 h2 ⊢
  rcases h1 with h1 | ⟨h1e, h1le⟩ <;> rcases h2 with h2 | ⟨h2e, h2le⟩
  · exact Or.inl (lt_trans h1 h2)
  · exact Or.inl (h2e ▸ h1)
  · exact Or.inl (h1e ▸ h2)
  · exact Or.inr ⟨h1e.trans h2e, le_trans h1le h2le⟩

/-- Every point of A lies exactly on A's implicit equation. -/
theorem ellipse_point_on_A (t : ℝ) :
    ((ellipse_point A_RX A_RY t).1 / A_RX) ^ 2 +
      ((ellipse_point A_RX A_RY t).2 / A_RY) ^ 2 = 1 := by
  rw [ellipse_point, A_RX, A_RY,
    mul_div_cancel_left₀ _ (by norm_num : (9.0:ℝ) ≠ 0),
    mul_div_cancel_left₀ _ (by norm_num : (5.5:ℝ) ≠ 0)]
  exact Real.cos_sq_add_sin_sq t

/-- The value of B's implicit equation at the `i`-th sample point is `r2`. -/
theorem ellipse_point_B_eq (i : ℕ) :
    ((ellipse_point A_RX A_RY (taOf i)).1 / B_RX) ^ 2 +
      ((ellipse_point A_RX A_RY (taOf i)).2 / B_RY) ^ 2 = r2Of i := by
  rw [ellipse_point, r2Of, cbOf, sbOf, xaOf, yaOf]
  ring

theorem crossing_ok_of_good (p : ℝ × ℝ) (h : goodPair p) : crossing_ok p := by
  obtain ⟨i, hiN, hc, rfl⟩ := h
  refine ⟨ellipse_point_on_A (taOf i), ?_⟩
  dsimp only
  rw [ellipse_point_B_eq]
  exact hc.2

/-- **C1**: for the fixed default radii, `find_crossings` returns exactly 4
crossings, each an ordered `(parameter-on-A, parameter-on-B)` pair, sorted
by parameter-on-A ascending, and each crossing's point lies exactly on
ellipse A and satisfies ellipse B's implicit equation within the tolerance
`0.003`. -/
theorem C1_intersection_finder_contract :
    find_crossings.length = 4 ∧
    List.Pairwise (fun p q : ℝ × ℝ => p.1 ≤ q.1) find_crossings ∧
    List.Forall crossing_ok find_crossings := by
  refine ⟨?_, ?_, ?_⟩
  · obtain ⟨i1, i2, i3, i4, -, -, -, -, he⟩ := crossings_raw
    rw [find_crossings, iSort_length, he]
    rfl
  · rw [find_crossings]
    refine (iSort_pairwise pairLe pairLe_total pairLe_trans _).imp ?_
    intro a b hab
    rcases (pairLe_iff a b).mp hab with h | ⟨h, -⟩
    · exact le_of_lt h
    · exact le_of_eq h
  · rw [List.forall_iff_forall_mem]
    intro p hp
    exact crossing_ok_of_good p (find_crossings_good p hp)

/-- **C10**: every returned crossing has parameter-on-A in `[0, 2π)` while
parameter-on-B is the raw two-argument arctangent value in `(-π, π]` — and
it is in fact negative at one of the returned crossings — and the segment
assembler's normalisation maps any angle into `[0, 2π)` (the `b_cross_angles`
used for sorting are `normalize_angle` images by definition). -/
theorem C10_raw_tb_needs_normalization :
    List.Forall (fun p : ℝ × ℝ =>
      0 ≤ p.1 ∧ p.1 < 2 * Real.pi ∧ -Real.pi < p.2 ∧ p.2 ≤ Real.pi)
      find_crossings ∧
    (∃ p ∈ find_crossings, p.2 < 0) ∧
    (∀ a : ℝ, 0 ≤ normalize_angle a ∧ normalize_angle a < 2 * Real.pi) := by
  refine ⟨?_, ?_, normalize_angle_mem⟩
  · rw [List.forall_iff_forall_mem]
    intro p hp
    obtain ⟨i, hiN, -, rfl⟩ := find_crossings_good p hp
    exact ⟨taOf_nonneg i, taOf_lt_two_pi i hiN, (tbOf_range i).1, (tbOf_range i).2⟩
  · obtain ⟨i1, i2, i3, i4, -, -, ⟨h3a, h3b, -⟩, -, he⟩ := crossings_raw
    refine ⟨(taOf i3, tbOf i3), ?_, ?_⟩
    · rw [find_crossings, mem_iSort, he]
      simp
    · have hgt : Real.pi < taOf i3 := by
        have h1 := taOf_mono 3601 i3 (by omega)
        have h2 : Real.pi < taOf 3601 := by
          rw [taOf, NSAMP]
          push_cast
          nlinarith [Real.pi_pos]
        linarith
      have hlt : taOf i3 < 2 * Real.pi := taOf_lt_two_pi i3 (by show i3 < 7200; omega)
      have hsin : Real.sin (taOf i3) < 0 := by
        have hid : Real.sin (taOf i3) = -Real.sin (taOf i3 - Real.pi) := by
          rw [Real.sin_sub, Real.sin_pi, Real.cos_pi]
          ring
        have hpos : 0 < Real.sin (taOf i3 - Real.pi) :=
          Real.sin_pos_of_pos_of_lt_pi (by linarith) (by linarith)
        rw [hid]
        linarith
      have hsb : sbOf i3 < 0 := by
        rw [sbOf, yaOf, A_RY, B_RY]
        exact div_neg_of_neg_of_pos
          (mul_neg_of_pos_of_neg (by norm_num) hsin) (by norm_num)
      rw [tbOf, atan2]
      exact Complex.arg_neg_iff.mpr hsb

/-- **C6**: the hardcoded occlusion pattern `a_on_top = [T, F, T, F]` assigns
exactly one winner per crossing (it is a total function to `Bool`), and
strictly alternates over the 4 crossings in their angular order, including
the wrap-around from the last crossing back to the first. -/
theorem C6_occlusion_strictly_alternates :
    ∀ i : Fin 4, a_on_top i ≠ a_on_top (i + 1) := by decide

end Paradox
